import Mathlib

/-!
Verification of the 4-bit grouped-quantization codec, causal attention mask,
rotary embedding, KV-cache bookkeeping and sampling of the web-llm inference
engine (`src/web_llm/transform/quantization.py`, `src/web_llm/relax_model/dolly.py`,
`src/chat.py`).

Modelling conventions:
 * 32-bit machine words are `ℕ` with explicit `% 2 ^ 32` where uint32 overflow
   can occur; bitwise operators are the `Nat` ones.
 * float32 arithmetic on matrix entries is modelled over `ℚ`; the one place
   where IEEE semantics diverges from field arithmetic (division by a zero
   scale, which produces NaN) is modelled by `Option ℚ` with `none` for NaN.
 * the bfloat16 round-to-nearest-even truncation of the stored (scale, bias)
   pairs is modelled exactly: the encoder's float32 values are turned into
   IEEE-754 bit patterns by `f32ToBits`, packed by the bit-level
   `f32x2_to_bf16x2_to_u32`, and read back by the decoder through
   `f32FromBits`, so `decode(encode(W))` carries the real truncation error.
-/

namespace WebLLM

/-! ## Bit-level helpers of `quantization.py` -/

/-- Body of the per-value loop of `_tir_f32x2_to_bf16x2_to_u32`
(`round_to_even=True` path): add `((u >> 16) & 1) + 0x7FFF` to the float32 bit
pattern (uint32 arithmetic, hence the `% 2 ^ 32`), then keep the top 16 bits. -/
def f32_to_bf16_bits (u : ℕ) : ℕ :=
  (((u + (((u >>> 16) &&& 1) + 0x7FFF)) % 2 ^ 32) >>> 16) &&& 0xFFFF

/-- `_tir_f32x2_to_bf16x2_to_u32`: pack two float32 bit patterns as two
rounded bfloat16 halves of one 32-bit word, the first value in the low half. -/
def f32x2_to_bf16x2_to_u32 (v0 v1 : ℕ) : ℕ :=
  f32_to_bf16_bits v0 ||| (f32_to_bf16_bits v1 <<< 16)

/-- `_tir_u32_to_bf16x2_to_f32x2`, bit level: split a 32-bit word into its two
bfloat16 halves and shift each back into the high 16 bits of a float32 bit
pattern (the `reinterpret("float32", x << 16)` of the source). -/
def u32_to_bf16x2_to_f32x2_bits (x : ℕ) : ℕ × ℕ :=
  ((x &&& 0xFFFF) <<< 16, ((x >>> 16) &&& 0xFFFF) <<< 16)

/-- Modelled from the spec: the round-to-nearest-even bfloat16 truncation of a
float32 bit pattern — "standard IEEE-754 rounding with bias `0x7FFF` plus the
rounded bit", keeping the top 16 bits of the (wrapping) 32-bit sum. -/
def bf16RoundSpec (bits : ℕ) : ℕ :=
  ((bits + ((bits >>> 16) &&& 1) + 0x7FFF) % 2 ^ 32) / 2 ^ 16 % 2 ^ 16

/-- Value of an IEEE-754 binary32 bit pattern, `none` for NaN/infinity
(exponent field all ones). -/
def f32FromBits (b : ℕ) : Option ℚ :=
  let s : ℕ := (b >>> 31) &&& 1
  let e : ℕ := (b >>> 23) &&& 255
  let m : ℕ := b &&& (2 ^ 23 - 1)
  if e = 255 then none
  else
    some ((if s = 1 then (-1 : ℚ) else 1) *
      (if e = 0 then (m : ℚ) * (2 : ℚ) ^ (-149 : ℤ)
       else ((2 ^ 23 + m : ℕ) : ℚ) * (2 : ℚ) ^ ((e : ℤ) - 150)))

/-- `_tir_u32_to_i4_to_f32`: extract the 4-bit nibble at position `pos` of a
32-bit word and cast it to float32 (exact, nibbles are small integers). -/
def u32_to_i4_to_f32 (val pos : ℕ) : ℚ :=
  (((val >>> (pos * 4)) &&& 15 : ℕ) : ℚ)

/-! ### The IEEE-754 binary32 encoding of a rational

`f32ToBits` is the inverse of `f32FromBits` on representable values; it
models `reinterpret("uint32", v)` of a float32 value `v` held as an exact
rational. It is split into small total definitions so concrete bit patterns
can be computed by rewriting. -/

/-- Round to nearest integer, ties to even (the IEEE default rounding). -/
def rneRound (x : ℚ) : ℤ :=
  if x - ⌊x⌋ < 1 / 2 then ⌊x⌋
  else if 1 / 2 < x - ⌊x⌋ then ⌊x⌋ + 1
  else if ⌊x⌋ % 2 = 0 then ⌊x⌋ else ⌊x⌋ + 1

/-- Binade exponent of a positive magnitude, floored at the subnormal
threshold `-126`: the `e` with `2^e ≤ a < 2^(e+1)` for normal values. -/
def f32ToBitsExp (a : ℚ) : ℤ := max (-126) (Int.log 2 a)

/-- 24-bit significand of magnitude `a`: `a / 2^e` scaled into `[2^23, 2^24)`
(below `2^23` only for subnormals) and rounded to nearest-even. -/
def f32ToBitsMant (a : ℚ) : ℤ :=
  rneRound (a * (2 : ℚ) ^ ((23 : ℤ) - f32ToBitsExp a))

/-- Assemble sign, unbiased exponent and 24-bit significand into the bit
pattern: overflow becomes ±infinity, a significand below `2^23` is a
subnormal (exponent field 0), otherwise the leading bit is implicit. -/
def f32ToBitsAssemble (s : ℕ) (e m : ℤ) : ℕ :=
  if 127 < e then (s <<< 31) ||| (255 <<< 23)
  else if m < 2 ^ 23 then (s <<< 31) ||| m.toNat
  else (s <<< 31) ||| ((e + 127).toNat <<< 23) ||| (m.toNat - 2 ^ 23)

/-- Renormalise when rounding carried the significand up to `2^24`. -/
def f32ToBitsPack (s : ℕ) (e m : ℤ) : ℕ :=
  if m = 2 ^ 24 then f32ToBitsAssemble s (e + 1) (2 ^ 23)
  else f32ToBitsAssemble s e m

/-- The IEEE-754 binary32 bit pattern of a rational (round to nearest, ties
to even; zero maps to `+0`). -/
def f32ToBits (q : ℚ) : ℕ :=
  if q = 0 then 0
  else f32ToBitsPack (if q < 0 then 1 else 0) (f32ToBitsExp |q|) (f32ToBitsMant |q|)

/-! ## Row-restricted decode (`decoding_after_taking_func_asym`) vs full decode
(`decoding_func_asym` with `data_transposed=False`, the layout produced by
`emit_encoding(transpose=False)` that `quantize_take` pairs it with). -/

/-- Element `(i, j)` of `decoding_func_asym(group_size)(data, scale_bias)` with
`data_transposed=False`: nibble `j % 8` of `data[i, j/8]` times the bfloat16
scale plus the bfloat16 bias of `scale_bias[i, j/group_size]`; `none` when a
scale/bias half decodes to NaN/Inf. -/
def decodeAsymElem (g : ℕ) (data scaleBias : ℕ → ℕ → ℕ) (i j : ℕ) : Option ℚ := do
  let sb := u32_to_bf16x2_to_f32x2_bits (scaleBias i (j / g))
  let scale ← f32FromBits sb.1
  let bias ← f32FromBits sb.2
  pure (u32_to_i4_to_f32 (data i (j / 8)) (j % 8) * scale + bias)

/-- Element `(i, j)` of `decoding_after_taking_func_asym(group_size)(data,
scale_bias, indices)`: same computation with row `indices[i]`. -/
def takeDecodeAsymElem (g : ℕ) (data scaleBias : ℕ → ℕ → ℕ) (indices : ℕ → ℕ)
    (i j : ℕ) : Option ℚ := do
  let sb := u32_to_bf16x2_to_f32x2_bits (scaleBias (indices i) (j / g))
  let scale ← f32FromBits sb.1
  let bias ← f32FromBits sb.2
  pure (u32_to_i4_to_f32 (data (indices i) (j / 8)) (j % 8) * scale + bias)

/-! ## Generic nibble-packing lemmas -/

/-- The `te.comm_reducer` bitwise-or reduction packing nibbles `f 0 .. f (m-1)`
into one word, nibble `k` shifted to bits `[4k, 4k+4)` (low-to-high). -/
def packNibbles (m : ℕ) (f : ℕ → ℕ) : ℕ :=
  (List.range m).foldr (fun k acc => (f k <<< (4 * k)) ||| acc) 0

/-- `encoding_func_asym`'s `w_gathered` reducer packs 8 nibbles per word. -/
def packWord (f : ℕ → ℕ) : ℕ := packNibbles 8 f

theorem foldr_or_out (t : ℕ → ℕ) (l : List ℕ) (init : ℕ) :
    l.foldr (fun k acc => t k ||| acc) init =
      l.foldr (fun k acc => t k ||| acc) 0 ||| init := by
  induction l with
  | nil => simp
  | cons a l ih => simp [List.foldr_cons, ih, Nat.or_assoc]

theorem sum_nibbles_lt (m : ℕ) (f : ℕ → ℕ) (hf : ∀ k, k < m → f k < 16) :
    ∑ k in Finset.range m, 16 ^ k * f k < 16 ^ m := by
  induction m with
  | zero => simp
  | succ m ih =>
    rw [Finset.sum_range_succ]
    have h1 : ∑ k in Finset.range m, 16 ^ k * f k < 16 ^ m :=
      ih fun k hk => hf k (by omega)
    have h2 : f m ≤ 15 := by have := hf m (by omega); omega
    have h3 : 16 ^ m * f m ≤ 16 ^ m * 15 := Nat.mul_le_mul_left _ h2
    have : 16 ^ (m + 1) = 16 ^ m + 16 ^ m * 15 := by ring
    omega

theorem packNibbles_eq_sum (m : ℕ) (f : ℕ → ℕ) (hf : ∀ k, k < m → f k < 16) :
    packNibbles m f = ∑ k in Finset.range m, 16 ^ k * f k := by
  induction m with
  | zero => rfl
  | succ m ih =>
    have hs : ∀ k, k < m → f k < 16 := fun k hk => hf k (by omega)
    have hsum := sum_nibbles_lt m f hs
    have hpow : (16 : ℕ) ^ m = 2 ^ (4 * m) := by
      rw [show (16 : ℕ) = 2 ^ 4 from rfl, ← pow_mul]
    rw [hpow] at hsum
    unfold packNibbles
    rw [List.range_succ, List.foldr_append]
    simp only [List.foldr_cons, List.foldr_nil, Nat.or_zero]
    rw [foldr_or_out, ← packNibbles, ih hs, Nat.shiftLeft_eq,
      Finset.sum_range_succ, hpow, Nat.mul_comm (f m) (2 ^ (4 * m)),
      Nat.or_comm, ← Nat.mul_add_lt_is_or hsum (f m)]
    omega

/-- Extracting nibble `p` (`(w >> (p*4)) & 15`, as `_tir_u32_to_i4_to_f32`
does) from a word packed from 8 nibbles recovers nibble `p`. -/
theorem packWord_nibble (f : ℕ → ℕ) (hf : ∀ k, k < 8 → f k < 16) (p : ℕ)
    (hp : p < 8) : (packWord f >>> (p * 4)) &&& 15 = f p := by
  have h0 := hf 0 (by omega); have h1 := hf 1 (by omega)
  have h2 := hf 2 (by omega); have h3 := hf 3 (by omega)
  have h4 := hf 4 (by omega); have h5 := hf 5 (by omega)
  have h6 := hf 6 (by omega); have h7 := hf 7 (by omega)
  have hsum : packWord f = f 0 + 16 * f 1 + 256 * f 2 + 4096 * f 3 +
      65536 * f 4 + 1048576 * f 5 + 16777216 * f 6 + 268435456 * f 7 := by
    rw [packWord, packNibbles_eq_sum 8 f hf]
    simp [Finset.sum_range_succ]
  rw [show (15 : ℕ) = 2 ^ 4 - 1 from rfl, Nat.and_pow_two_sub_one_eq_mod,
    Nat.shiftRight_eq_div_pow, hsum]
  interval_cases p <;> norm_num <;> omega

theorem or_shiftLeft16_eq_add (a b : ℕ) (ha : a < 2 ^ 16) :
    a ||| b <<< 16 = a + 2 ^ 16 * b := by
  rw [Nat.shiftLeft_eq, Nat.mul_comm b (2 ^ 16), Nat.or_comm,
    ← Nat.mul_add_lt_is_or ha b]
  omega

theorem f32_to_bf16_bits_eq_spec (u : ℕ) : f32_to_bf16_bits u = bf16RoundSpec u := by
  unfold f32_to_bf16_bits bf16RoundSpec
  rw [show (0xFFFF : ℕ) = 2 ^ 16 - 1 from rfl, Nat.and_pow_two_sub_one_eq_mod,
    Nat.add_assoc]
  simp only [Nat.shiftRight_eq_div_pow]

theorem f32_to_bf16_bits_lt (u : ℕ) : f32_to_bf16_bits u < 2 ^ 16 := by
  rw [f32_to_bf16_bits_eq_spec]
  exact Nat.mod_lt _ (by norm_num)

/-- C3: for every pair of float32 bit patterns, `_tir_f32x2_to_bf16x2_to_u32`
stores in the low half-word the bfloat16 obtained by the round-to-nearest-even
formula (add `((bits >> 16) & 1) + 0x7FFF` to the 32-bit pattern, keep the top
16 bits) applied to the first value, in the high half-word the same applied to
the second, and `_tir_u32_to_bf16x2_to_f32x2` shifts each half back into the
high 16 bits of a float32 bit pattern. -/
theorem scale_bias_bf16_packing (v0 v1 : ℕ) :
    f32x2_to_bf16x2_to_u32 v0 v1 &&& 0xFFFF = bf16RoundSpec v0 ∧
    f32x2_to_bf16x2_to_u32 v0 v1 >>> 16 = bf16RoundSpec v1 ∧
    u32_to_bf16x2_to_f32x2_bits (f32x2_to_bf16x2_to_u32 v0 v1) =
      (bf16RoundSpec v0 <<< 16, bf16RoundSpec v1 <<< 16) := by
  have hlt0 := f32_to_bf16_bits_lt v0
  have hlt1 := f32_to_bf16_bits_lt v1
  have hadd : f32x2_to_bf16x2_to_u32 v0 v1 =
      f32_to_bf16_bits v0 + 2 ^ 16 * f32_to_bf16_bits v1 :=
    or_shiftLeft16_eq_add _ _ hlt0
  have hlo : f32x2_to_bf16x2_to_u32 v0 v1 &&& 0xFFFF = bf16RoundSpec v0 := by
    rw [hadd, show (0xFFFF : ℕ) = 2 ^ 16 - 1 from rfl,
      Nat.and_pow_two_sub_one_eq_mod, ← f32_to_bf16_bits_eq_spec v0]
    omega
  have hhi : f32x2_to_bf16x2_to_u32 v0 v1 >>> 16 = bf16RoundSpec v1 := by
    rw [hadd, Nat.shiftRight_eq_div_pow, ← f32_to_bf16_bits_eq_spec v1]
    omega
  refine ⟨hlo, hhi, ?_⟩
  unfold u32_to_bf16x2_to_f32x2_bits
  rw [hlo, hhi, show (0xFFFF : ℕ) = 2 ^ 16 - 1 from rfl,
    Nat.and_pow_two_sub_one_of_lt_two_pow
      (by rw [← f32_to_bf16_bits_eq_spec v1]; exact f32_to_bf16_bits_lt v1)]

/-- C4: the row-restricted decode `decoding_after_taking_func_asym` agrees,
element for element and exactly, with first decoding the full weight via
`decoding_func_asym` and then selecting the rows listed in `indices`. -/
theorem take_decode_eq_decode_of_take (g : ℕ) (data scaleBias : ℕ → ℕ → ℕ)
    (indices : ℕ → ℕ) (i j : ℕ) :
    takeDecodeAsymElem g data scaleBias indices i j =
      decodeAsymElem g data scaleBias (indices i) j := rfl

/-! ## Causal attention mask (`_prepare_decoder_attention_mask` in `dolly.py`) -/

/-- `tvm.tir.min_value("float32")`: the minimum representable finite float32,
`-(2 - 2^-23) * 2^127`. -/
def float32MinValue : ℚ := -(2 ^ 128 - 2 ^ 104)

/-- `full((tgt_len, tgt_len), _min_value(dtype))`. -/
def fullMatrix (v : ℚ) : ℕ → ℕ → ℚ := fun _ _ => v

/-- `triu(mask, k=1)` (general `k`): keep entries on or above the `k`-th
diagonal, zero the rest. -/
def triuMatrix (m : ℕ → ℕ → ℚ) (k : ℤ) : ℕ → ℕ → ℚ :=
  fun i j => if k ≤ (j : ℤ) - (i : ℤ) then m i j else 0

/-- `_prepare_decoder_attention_mask(input_shape, src_len, dtype)`, batch and
broadcast dimensions dropped (batch size is 1 throughout). The source branches
on `seq_len` being symbolic or `> 1`; the prefill trace uses a symbolic
`seq_len` and therefore the `triu` branch, concretised here as `1 < seqLen`.
The decode trace (`seq_len == 1`) gets the all-zero mask over `srcLen` keys. -/
def prepareDecoderAttentionMask (seqLen srcLen : ℕ) : ℕ → ℕ → ℚ :=
  if 1 < seqLen then triuMatrix (fullMatrix float32MinValue) 1
  else fun _ _ => 0

/-- C2: in a prefill pass (`seq_len == total_length`) the additive mask entry
at query `i`, key `j` is the minimum finite float32 for `j > i` and `0` for
`j ≤ i`; in a single-token decode pass (`seq_len == 1`) the mask is
identically `0` over all `total_length` cached positions. -/
theorem causal_mask_entries (seqLen totalLen i j : ℕ) :
    (seqLen = totalLen → i < totalLen → j < totalLen →
      prepareDecoderAttentionMask seqLen totalLen i j =
        if i < j then float32MinValue else 0) ∧
    (seqLen = 1 → prepareDecoderAttentionMask seqLen totalLen i j = 0) := by
  constructor
  · rintro rfl hi hj
    unfold prepareDecoderAttentionMask triuMatrix fullMatrix
    by_cases h : 1 < seqLen
    · simp only [if_pos h]
      by_cases hij : i < j
      · rw [if_pos (by omega), if_pos hij]
      · rw [if_neg (by omega), if_neg hij]
    · simp only [if_neg h]
      rw [if_neg (by omega)]
  · rintro rfl
    unfold prepareDecoderAttentionMask
    rw [if_neg (by omega)]

/-- Witness for `causal_mask_entries` at concrete inputs: a prefill mask of
size 2 masks the future key 1 from query 0, and a decode mask is zero. -/
theorem causal_mask_entries_witness :
    prepareDecoderAttentionMask 2 2 0 1 = float32MinValue ∧
    prepareDecoderAttentionMask 1 5 0 3 = 0 := by
  constructor
  · have h := (causal_mask_entries 2 2 0 1).1 rfl (by norm_num) (by norm_num)
    simpa using h
  · exact (causal_mask_entries 1 5 0 3).2 rfl

/-! ## KV-cache row counts (`GPTNeoXAttention.forward`, `ModelWrapper.generate`)

The cache buffers themselves live in the TVM runtime
(`vm.builtin.attention_kv_cache_append` / `_view`), outside this repository;
only their row counts are modelled, from the spec's contract for `append`. -/

/-- Modelled from the spec: `vm.builtin.attention_kv_cache_append` appends
`new_tokens` rows to a buffer, "increasing `capacity` by `new_tokens`";
only the row count of a buffer is modelled. -/
def kvCacheAppend (len newTokens : ℕ) : ℕ := len + newTokens

/-- One model forward pass with a cache present: `GPTNeoXAttention.forward`
appends `squeeze(k, axis=0)` / `squeeze(v, axis=0)` — `seq_len` rows — to the
layer's buffers, and `GPTNeoXModel.forward` does so for every layer. `lens`
maps a (layer, key-or-value) buffer index to its row count. -/
def attentionCacheStep (lens : ℕ → ℕ) (seqLen : ℕ) : ℕ → ℕ :=
  fun buf => kvCacheAppend (lens buf) seqLen

/-- `Model.new_cache` in `chat.py`: fresh per-layer buffers holding 0 rows. -/
def freshCacheLens : ℕ → ℕ := fun _ => 0

/-- `ModelWrapper.generate`: the prefill call (`cur_pos == start_pos`) feeds
the `p` prompt tokens with a cleared cache (`clear_cache=True`). -/
def cacheLensAfterPrefill (p : ℕ) : ℕ → ℕ := attentionCacheStep freshCacheLens p

/-- `ModelWrapper.generate`: each later iteration feeds exactly one token
(`tokens[:, cur_pos - 1 : cur_pos]`), extending the cache of the previous
step. -/
def cacheLensAfterDecodes (p : ℕ) : ℕ → ℕ → ℕ
  | 0 => cacheLensAfterPrefill p
  | d + 1 => attentionCacheStep (cacheLensAfterDecodes p d) 1

/-- C5: every key and value buffer holds exactly `p` rows after a prefill over
`p` tokens and exactly `p + d` rows after `d` further single-token decode
steps; appends only ever add `seq_len` rows and nothing is removed. -/
theorem cache_length_after_prefill_and_decodes (p d buf : ℕ) :
    cacheLensAfterPrefill p buf = p ∧ cacheLensAfterDecodes p d buf = p + d := by
  have hp : cacheLensAfterPrefill p buf = p := by
    unfold cacheLensAfterPrefill attentionCacheStep kvCacheAppend freshCacheLens
    omega
  refine ⟨hp, ?_⟩
  induction d with
    | zero => simpa using hp
    | succ d ih =>
      show attentionCacheStep (cacheLensAfterDecodes p d) 1 buf = p + (d + 1)
      unfold attentionCacheStep kvCacheAppend
      omega

/-! ## Decode-loop handling of NaN/Inf logits (`ModelWrapper.generate`) -/

/-- float32 values as the decode loop sees them: finite, NaN, or ±infinity. -/
inductive FVal where
  | fin (q : ℚ)
  | nan
  | inf
  | ninf
deriving DecidableEq

/-- The ordering `torch.argmax` effectively uses: NaN propagates as the
maximum, infinities compare as usual, finite values by magnitude. -/
def fvalGt : FVal → FVal → Bool
  | .nan, .nan => false
  | .nan, _ => true
  | _, .nan => false
  | .inf, .inf => false
  | .inf, _ => true
  | _, .inf => false
  | .ninf, _ => false
  | _, .ninf => true
  | .fin a, .fin b => a > b

/-- Index of the first maximal element (NaN maximal), scanning left to
right — `torch.argmax(logits, dim=-1)` for a batch of one row. -/
def argmaxFrom : ℕ → ℕ → FVal → List FVal → ℕ
  | _, best, _, [] => best
  | i, best, bestV, x :: xs =>
    if fvalGt x bestV then argmaxFrom (i + 1) i x xs
    else argmaxFrom (i + 1) best bestV xs

def argmaxTorch : List FVal → ℕ
  | [] => 0
  | x :: xs => argmaxFrom 1 0 x xs

/-- The `temperature == 0` branch of `ModelWrapper.generate`: the next token
is `torch.argmax(logits)`. The source performs no NaN/Inf check of any kind,
so the embedding's error channel is never used: every logits vector, NaN or
not, yields `.ok` with a sampled token and generation continues. -/
def decodeStepGreedy (logits : List FVal) : Except String ℕ :=
  Except.ok (argmaxTorch logits)

/-- `True` iff some logit is NaN or ±infinite. -/
def hasNaNOrInf (logits : List FVal) : Bool :=
  logits.any fun v => match v with
    | .fin _ => false
    | _ => true

/-- C9 (code bug): at the NaN-containing logits vector `[0, NaN]` the decode
loop raises nothing; it samples token index 1 (the NaN position, which
`torch.argmax` treats as maximal) and continues. -/
theorem nan_logits_sampled_not_rejected :
    hasNaNOrInf [FVal.fin 0, FVal.nan] = true ∧
    decodeStepGreedy [FVal.fin 0, FVal.nan] = Except.ok 1 := ⟨rfl, rfl⟩

/-! ## Last-position logits (`GPTNeoXForCausalLM.forward`) -/

/-- The `_slice` `te.compute` of `GPTNeoXForCausalLM.forward`: hidden states
of shape `(1, seq_len, hidden)` are cut down to row `seq_len - 1`, giving
shape `(1, 1, hidden)`. -/
def sliceLastHidden (seqLen : ℕ) (x : ℕ → ℕ → ℕ → ℚ) : ℕ → ℕ → ℕ → ℚ :=
  fun i _ k => x i (seqLen - 1) k

/-- `self.embed_out`: `Linear(hidden, vocab, bias=False)` applied to the last
axis: `logits[i, j, v] = Σ_k x[i, j, k] * W[v, k]`. -/
def embedOut (hidden : ℕ) (w : ℕ → ℕ → ℚ) (x : ℕ → ℕ → ℕ → ℚ) :
    ℕ → ℕ → ℕ → ℚ :=
  fun i j v => ∑ k in Finset.range hidden, x i j k * w v k

/-- `GPTNeoXForCausalLM.forward` after the `gpt_neox` trunk: slice to the last
position, then project to vocabulary logits. -/
def causalLMLogits (seqLen hidden : ℕ) (w : ℕ → ℕ → ℚ) (x : ℕ → ℕ → ℕ → ℚ) :
    ℕ → ℕ → ℕ → ℚ :=
  embedOut hidden w (sliceLastHidden seqLen x)

/-- C8: the forward pass produces logits for the last input position only:
any two hidden-state tensors that agree on row `seq_len - 1` give identical
logits (rows `0 .. seq_len-2` are never consulted), and the single produced
logits row is position-index independent (the output has one sequence
position, shape `(1, 1, vocab)`). -/
theorem logits_from_last_position_only (seqLen hidden : ℕ) (w : ℕ → ℕ → ℚ)
    (x y : ℕ → ℕ → ℕ → ℚ) (h : ∀ i k, x i (seqLen - 1) k = y i (seqLen - 1) k) :
    (∀ i j v, causalLMLogits seqLen hidden w x i j v =
      causalLMLogits seqLen hidden w y i j v) ∧
    (∀ i j v, causalLMLogits seqLen hidden w x i j v =
      causalLMLogits seqLen hidden w x i 0 v) := by
  constructor
  · intro i j v
    unfold causalLMLogits embedOut sliceLastHidden
    exact Finset.sum_congr rfl fun k _ => by rw [h i k]
  · intro i j v
    rfl

/-- Witness for `logits_from_last_position_only`: two hidden-state tensors
differing everywhere except on the last row (row 1 of 2) give equal logits. -/
theorem logits_from_last_position_only_witness :
    causalLMLogits 2 1 (fun _ _ => 1) (fun _ s _ => if s = 0 then (5 : ℚ) else 7)
      0 0 0 =
    causalLMLogits 2 1 (fun _ _ => 1) (fun _ s _ => if s = 1 then (7 : ℚ) else 9)
      0 0 0 :=
  (logits_from_last_position_only 2 1 (fun _ _ => 1)
    (fun _ s _ => if s = 0 then (5 : ℚ) else 7)
    (fun _ s _ => if s = 1 then (7 : ℚ) else 9)
    (fun _ _ => rfl)).1 0 0 0

/-! ## Rotary embedding (`RotaryEmbedding` in `dolly.py`) -/

/-- `inv_freq[i] = 1 / base ** ((2 i) / rotary_ndim)` (entry `i` of
`np.arange(0, rotary_ndim, 2)` is `2 i`). -/
noncomputable def invFreq (base : ℝ) (rotaryNdim : ℕ) (i : ℕ) : ℝ :=
  1 / base ^ ((2 * (i : ℝ)) / (rotaryNdim : ℝ))

/-- `freq = np.einsum("i,j->ij", t, inv_freq)` with `t = arange(max_len)`. -/
noncomputable def rotaryFreq (base : ℝ) (rotaryNdim : ℕ) (pos i : ℕ) : ℝ :=
  (pos : ℝ) * invFreq base rotaryNdim i

/-- Number of columns of `freq`, the length of `np.arange(0, rotary_ndim, 2)`. -/
def nFreqCols (rotaryNdim : ℕ) : ℕ := (rotaryNdim + 1) / 2

/-- `emb = np.concatenate((freq, freq), axis=-1)`. -/
noncomputable def rotaryEmb (base : ℝ) (rotaryNdim : ℕ) (pos d : ℕ) : ℝ :=
  if d < nFreqCols rotaryNdim then rotaryFreq base rotaryNdim pos d
  else rotaryFreq base rotaryNdim pos (d - nFreqCols rotaryNdim)

/-- `cos_cached = np.cos(emb)` (mathematical cosine; the float32 table is its
rounding). -/
noncomputable def cosCached (base : ℝ) (rotaryNdim : ℕ) (pos d : ℕ) : ℝ :=
  Real.cos (rotaryEmb base rotaryNdim pos d)

/-- `sin_cached = np.sin(emb)`. -/
noncomputable def sinCached (base : ℝ) (rotaryNdim : ℕ) (pos d : ℕ) : ℝ :=
  Real.sin (rotaryEmb base rotaryNdim pos d)

/-- The `rotary_embedding` `te.compute` of `RotaryEmbedding.forward`: below
`rotary_ndim`, `cos[offset+s, d] * x[d] + sin[offset+s, d] * rotated` where
`rotated` is the swap-and-negate of the two halves; at or above `rotary_ndim`,
pass-through. -/
noncomputable def rotaryCompute (rotaryNdim : ℕ) (cosT sinT : ℕ → ℕ → ℝ)
    (offset : ℕ) (x : ℕ → ℕ → ℕ → ℕ → ℝ) (b s h d : ℕ) : ℝ :=
  if d < rotaryNdim then
    cosT (offset + s) d * x b s h d +
      sinT (offset + s) d *
        (if d < rotaryNdim / 2 then -x b s h (d + rotaryNdim / 2)
         else x b s h (d - rotaryNdim / 2))
  else x b s h d

/-- C7: with `offset = 0`, the rotary embedding is the identity on sequence
position 0: `cos[0, i] = 1` and `sin[0, i] = 0`, so the output equals the
input at every head-dim index, both below `rotary_ndim` and in the
pass-through range. -/
theorem rotary_identity_at_position_zero (base : ℝ) (rotaryNdim : ℕ)
    (x : ℕ → ℕ → ℕ → ℕ → ℝ) (b h d : ℕ) :
    rotaryCompute rotaryNdim (cosCached base rotaryNdim)
      (sinCached base rotaryNdim) 0 x b 0 h d = x b 0 h d := by
  have hemb : rotaryEmb base rotaryNdim (0 + 0) d = 0 := by
    unfold rotaryEmb rotaryFreq
    split <;> simp
  unfold rotaryCompute
  rw [cosCached, sinCached, hemb, Real.cos_zero, Real.sin_zero]
  split <;> ring

/-! ## Nucleus sampling (`sample_top_p` in `chat.py`)

`torch.sort(probs, descending=True)` is modelled by a permutation `σ` of the
vocabulary together with the hypothesis that `probs ∘ σ` is descending;
`torch.multinomial` + `torch.gather(probs_idx, ...)` draw token `σ k` with
probability `renorm k`, so the distribution of the emitted token assigns `v`
the total renormalised mass of positions mapping to `v`. -/

/-- `probs_sort`: the probabilities in sorted order. -/
def probsSort (n : ℕ) (probs : Fin (n + 1) → ℚ) (σ : Equiv.Perm (Fin (n + 1)))
    (k : Fin (n + 1)) : ℚ := probs (σ k)

/-- `probs_sum = torch.cumsum(probs_sort)` (inclusive cumulative sum). -/
def probsCumsum (n : ℕ) (probs : Fin (n + 1) → ℚ) (σ : Equiv.Perm (Fin (n + 1)))
    (k : Fin (n + 1)) : ℚ := ∑ j in Finset.Iic k, probsSort n probs σ j

/-- `probs_sort[probs_sum - probs_sort > p] = 0.0`. -/
def probsZeroed (n : ℕ) (probs : Fin (n + 1) → ℚ) (σ : Equiv.Perm (Fin (n + 1)))
    (p : ℚ) (k : Fin (n + 1)) : ℚ :=
  if probsCumsum n probs σ k - probsSort n probs σ k > p then 0
  else probsSort n probs σ k

/-- `probs_sort.div_(probs_sort.sum(...))`: renormalised kept mass. -/
def probsRenormed (n : ℕ) (probs : Fin (n + 1) → ℚ) (σ : Equiv.Perm (Fin (n + 1)))
    (p : ℚ) (k : Fin (n + 1)) : ℚ :=
  probsZeroed n probs σ p k / ∑ m, probsZeroed n probs σ p m

/-- Distribution of the emitted token: `torch.multinomial` picks sorted slot
`k` with probability `probsRenormed k` and `torch.gather` maps it back to
vocabulary index `σ k`. -/
def sampleTopPDist (n : ℕ) (probs : Fin (n + 1) → ℚ) (σ : Equiv.Perm (Fin (n + 1)))
    (p : ℚ) (v : Fin (n + 1)) : ℚ :=
  ∑ k, if σ k = v then probsRenormed n probs σ p k else 0

theorem cumsum_sub_self (n : ℕ) (probs : Fin (n + 1) → ℚ)
    (σ : Equiv.Perm (Fin (n + 1))) (k : Fin (n + 1)) :
    probsCumsum n probs σ k - probsSort n probs σ k =
      ∑ j in Finset.Iio k, probsSort n probs σ j := by
  unfold probsCumsum
  rw [← Finset.Iio_insert, Finset.sum_insert (by simp)]
  ring

/-- C6: with `top_p = 1` no slot is zeroed and the emitted token is
distributed exactly as `probs`; with `0 ≤ top_p` strictly below the largest
probability, every slot but the first sorted one is zeroed and the emitted
token is deterministically `σ 0`, an argmax of `probs`. -/
theorem sample_top_p_extremes (n : ℕ) (probs : Fin (n + 1) → ℚ)
    (σ : Equiv.Perm (Fin (n + 1))) (p : ℚ)
    (hnn : ∀ k, 0 ≤ probs k) (hsum : ∑ k, probs k = 1)
    (hsorted : ∀ a b : Fin (n + 1), a ≤ b → probs (σ b) ≤ probs (σ a)) :
    (p = 1 →
      (∀ k, probsZeroed n probs σ p k = probsSort n probs σ k) ∧
      (∀ v, sampleTopPDist n probs σ p v = probs v)) ∧
    (0 ≤ p → p < probsSort n probs σ 0 →
      (∀ k, k ≠ 0 → probsZeroed n probs σ p k = 0) ∧
      (∀ v, sampleTopPDist n probs σ p v = if v = σ 0 then 1 else 0) ∧
      (∀ v, probs v ≤ probs (σ 0))) := by
  have hsortnn : ∀ k, 0 ≤ probsSort n probs σ k := fun k => hnn (σ k)
  have hsortsum : ∑ k, probsSort n probs σ k = 1 := by
    rw [← hsum]
    exact Equiv.sum_comp σ probs
  constructor
  · rintro rfl
    have hkeep : ∀ k, probsZeroed n probs σ 1 k = probsSort n probs σ k := by
      intro k
      unfold probsZeroed
      rw [if_neg]
      rw [cumsum_sub_self]
      push_neg
      calc ∑ j in Finset.Iio k, probsSort n probs σ j
          ≤ ∑ j, probsSort n probs σ j :=
            Finset.sum_le_sum_of_subset_of_nonneg (Finset.subset_univ _)
              fun j _ _ => hsortnn j
        _ = 1 := hsortsum
    refine ⟨hkeep, fun v => ?_⟩
    unfold sampleTopPDist probsRenormed
    simp only [hkeep, hsortsum, div_one]
    have : ∀ k : Fin (n + 1),
        (if σ k = v then probsSort n probs σ k else 0) =
          if k = σ.symm v then probs v else 0 := by
      intro k
      by_cases h : σ k = v
      · rw [if_pos h, if_pos (σ.apply_eq_iff_eq_symm_apply.mp h)]
        unfold probsSort
        rw [h]
      · rw [if_neg h, if_neg fun hh => h (by rw [hh]; exact σ.apply_symm_apply v)]
    rw [Finset.sum_congr rfl fun k _ => this k, Finset.sum_ite_eq' Finset.univ]
    simp
  · intro hp0 hptop
    have htop0 : 0 < probsSort n probs σ 0 := lt_of_le_of_lt hp0 hptop
    have hzero : ∀ k, k ≠ 0 → probsZeroed n probs σ p k = 0 := by
      intro k hk
      unfold probsZeroed
      rw [if_pos]
      rw [cumsum_sub_self]
      calc p < probsSort n probs σ 0 := hptop
        _ ≤ ∑ j in Finset.Iio k, probsSort n probs σ j := by
            refine Finset.single_le_sum (fun j _ => hsortnn j) ?_
            simp [Finset.mem_Iio]
            exact Fin.pos_of_ne_zero hk
    have hkeep0 : probsZeroed n probs σ p 0 = probsSort n probs σ 0 := by
      unfold probsZeroed
      rw [if_neg]
      rw [cumsum_sub_self]
      push_neg
      calc ∑ j in Finset.Iio (0 : Fin (n + 1)), probsSort n probs σ j = 0 :=
            Finset.sum_eq_zero fun j hj =>
              absurd (Finset.mem_Iio.mp hj) (by simp)
        _ ≤ p := hp0
    have hz : ∑ m, probsZeroed n probs σ p m = probsSort n probs σ 0 := by
      rw [Finset.sum_eq_single 0 (fun m _ hm => hzero m hm) (by simp)]
      exact hkeep0
    have hren : ∀ k, probsRenormed n probs σ p k = if k = 0 then 1 else 0 := by
      intro k
      unfold probsRenormed
      rw [hz]
      by_cases hk : k = 0
      · rw [if_pos hk, hk, hkeep0, div_self (ne_of_gt htop0)]
      · rw [if_neg hk, hzero k hk, zero_div]
    refine ⟨hzero, fun v => ?_, fun v => ?_⟩
    · unfold sampleTopPDist
      simp only [hren]
      have : ∀ k : Fin (n + 1),
          (if σ k = v then if k = 0 then (1 : ℚ) else 0 else 0) =
            if k = σ.symm v then (if σ.symm v = 0 then (1 : ℚ) else 0) else 0 := by
        intro k
        by_cases h : σ k = v
        · have hk := σ.apply_eq_iff_eq_symm_apply.mp h
          rw [if_pos h, if_pos hk, hk]
        · rw [if_neg h,
            if_neg fun hh => h (by rw [hh]; exact σ.apply_symm_apply v)]
      rw [Finset.sum_congr rfl fun k _ => this k, Finset.sum_ite_eq' Finset.univ]
      simp only [Finset.mem_univ, if_true]
      by_cases hv : v = σ 0
      · rw [if_pos hv, if_pos (by rw [hv]; exact σ.symm_apply_apply 0)]
      · rw [if_neg hv, if_neg fun hh => hv (by rw [← σ.apply_symm_apply v, hh])]
    · have : probs v = probsSort n probs σ (σ.symm v) := by
        unfold probsSort
        rw [σ.apply_symm_apply]
      rw [this]
      exact hsorted 0 (σ.symm v) (Fin.zero_le _)

/-- Witness for `sample_top_p_extremes` on `probs = (3/4, 1/4)` with the
identity sort permutation: `top_p = 1` reproduces `probs` at token 0, and
`top_p = 1/2 < 3/4` zeroes the non-argmax slot 1. -/
theorem sample_top_p_extremes_witness :
    sampleTopPDist 1 (fun k => if k = 0 then 3/4 else 1/4) (Equiv.refl (Fin 2))
      1 0 = 3/4 ∧
    probsZeroed 1 (fun k => if k = 0 then 3/4 else 1/4) (Equiv.refl (Fin 2))
      (1/2) 1 = 0 := by
  have h0 : ∀ k : Fin (1 + 1), 0 ≤ (fun k : Fin 2 => if k = 0 then (3 : ℚ)/4 else 1/4) k := by
    intro k
    fin_cases k <;> norm_num
  have h1 : ∑ k : Fin (1 + 1), (fun k : Fin 2 => if k = 0 then (3 : ℚ)/4 else 1/4) k = 1 := by
    rw [Fin.sum_univ_two]
    norm_num
  have h2 : ∀ a b : Fin (1 + 1), a ≤ b →
      (fun k : Fin 2 => if k = 0 then (3 : ℚ)/4 else 1/4) ((Equiv.refl (Fin 2)) b) ≤
        (fun k : Fin 2 => if k = 0 then (3 : ℚ)/4 else 1/4) ((Equiv.refl (Fin 2)) a) := by
    intro a b hab
    fin_cases a <;> fin_cases b <;>
      simp_all [Equiv.refl_apply] <;> norm_num
  have ha := sample_top_p_extremes 1 (fun k => if k = 0 then 3/4 else 1/4)
    (Equiv.refl (Fin 2)) 1 h0 h1 h2
  have hb := sample_top_p_extremes 1 (fun k => if k = 0 then 3/4 else 1/4)
    (Equiv.refl (Fin 2)) (1/2) h0 h1 h2
  have htop : (1 : ℚ)/2 <
      probsSort 1 (fun k => if k = 0 then 3/4 else 1/4) (Equiv.refl (Fin 2)) 0 := by
    norm_num [probsSort]
  refine ⟨?_, (hb.2 (by norm_num) htop).1 1 (by norm_num)⟩
  have := (ha.1 rfl).2 0
  simpa using this

/-! ## The `ℚ`-level grouped 4-bit codec (`encoding_func_asym`,
`decoding_func_asym`)

Matrix entries and the (scale, bias) pair are exact rationals here; the
bfloat16 bit packing of (scale, bias) is verified separately at the bit level
above. Float division is `fdiv`, which returns `none` where IEEE float32
division produces a non-finite value from the finite operands of the encoder
(a zero scale, giving `0/0 = NaN`). -/

/-- float32 division inside `f_scale_weight`: `none` models the non-finite
result of dividing by a zero scale (the numerator is then also 0, so the IEEE
result is NaN). -/
def fdiv (x y : ℚ) : Option ℚ := if y = 0 then none else some (x / y)

/-- `tir.round`: round to nearest integer, halves away from zero. -/
def tirRound (x : ℚ) : ℤ := if 0 ≤ x then round x else -round (-x)

/-- `T.min(T.max(w_scaled, 0), 15)`. -/
def clampIdx (z : ℤ) : ℤ := min (max z 0) 15

/-- The `group_size` entries of row `i`, group `jg`:
`weight[i, jg * group_size + k]` for `k < group_size`. -/
def groupCols (W : ℕ → ℕ → ℚ) (g i jg : ℕ) : List ℚ :=
  (List.range g).map fun k => W i (jg * g + k)

/-- `min_value[i, jg] = te.min(weight[i, jg*group_size+k], axis=k)`; the
reduction of the nonempty group is written as a fold seeded with the group's
first entry (idempotently repeated, which leaves a `min` unchanged). -/
def minValue (W : ℕ → ℕ → ℚ) (g i jg : ℕ) : ℚ :=
  (groupCols W g i jg).foldr min (W i (jg * g))

/-- `max_value[i, jg]`, dually. -/
def maxValue (W : ℕ → ℕ → ℚ) (g i jg : ℕ) : ℚ :=
  (groupCols W g i jg).foldr max (W i (jg * g))

/-- `scale[i, jg] = (max_value - min_value) / 15`. -/
def scaleValue (W : ℕ → ℕ → ℚ) (g i jg : ℕ) : ℚ :=
  (maxValue W g i jg - minValue W g i jg) / 15

/-- `f_scale_weight(i, j)`: `round((weight - min) / scale)` clamped to
`[0, 15]`; `none` when the group's scale is zero (NaN index). -/
def fScaleWeight (W : ℕ → ℕ → ℚ) (g i j : ℕ) : Option ℤ :=
  (fdiv (W i j - minValue W g i (j / g)) (scaleValue W g i (j / g))).map
    fun q => clampIdx (tirRound q)

/-- The nibble actually stored: the index as a uint32 (an undefined NaN cast
is represented by 0; it is ruled out wherever the scale is nonzero). -/
def fScaleWeightN (W : ℕ → ℕ → ℚ) (g i j : ℕ) : ℕ :=
  ((fScaleWeight W g i j).getD 0).toNat

/-- `w_gathered[i, jw]` (`transpose=False` layout): 8 consecutive indices of
row `i` packed low-to-high into one 32-bit word. -/
def wGathered (W : ℕ → ℕ → ℚ) (g i jw : ℕ) : ℕ :=
  packWord fun k => fScaleWeightN W g i (jw * 8 + k)

/-- `encoding_func_asym`'s `scale_bias[i, jg]`:
`_tir_f32x2_to_bf16x2_to_u32(scale[i, jg], min_value[i, jg])` — the two
float32 values' bit patterns, bfloat16-rounded and packed into one word. -/
def scaleBiasStored (W : ℕ → ℕ → ℚ) (g i jg : ℕ) : ℕ :=
  f32x2_to_bf16x2_to_u32 (f32ToBits (scaleValue W g i jg))
    (f32ToBits (minValue W g i jg))

/-- The scale the decoder actually uses for row `i`, group `jg`: the low
bfloat16 half of the stored word, read back as a float32 (`none` if
non-finite). -/
def storedScale (W : ℕ → ℕ → ℚ) (g i jg : ℕ) : Option ℚ :=
  f32FromBits (u32_to_bf16x2_to_f32x2_bits (scaleBiasStored W g i jg)).1

/-- The bias the decoder actually uses, dually (the high half). -/
def storedBias (W : ℕ → ℕ → ℚ) (g i jg : ℕ) : Option ℚ :=
  f32FromBits (u32_to_bf16x2_to_f32x2_bits (scaleBiasStored W g i jg)).2

/-- `decode(encode(W))` at element `(i, j)`: the encoder's packed word and
bfloat16-truncated (scale, bias) word fed to `decoding_func_asym`
(`decodeAsymElem`); `none` when any index of the containing packed word is
NaN (a constant group) or a stored half reads back non-finite. -/
def roundTripOpt (W : ℕ → ℕ → ℚ) (g i j : ℕ) : Option ℚ :=
  if (List.range 8).all (fun k => (fScaleWeight W g i (j / 8 * 8 + k)).isSome) then
    decodeAsymElem g (wGathered W g) (scaleBiasStored W g) i j
  else none

theorem foldr_min_le_of_mem (l : List ℚ) (d x : ℚ) (hx : x ∈ l) :
    l.foldr min d ≤ x := by
  induction l with
  | nil => cases hx
  | cons a l ih =>
    rcases List.mem_cons.mp hx with h | h
    · subst h
      exact min_le_left _ _
    · exact le_trans (min_le_right _ _) (ih h)

theorem foldr_min_le_init (l : List ℚ) (d : ℚ) : l.foldr min d ≤ d := by
  induction l with
  | nil => exact le_refl d
  | cons a l ih => exact le_trans (min_le_right _ _) ih

theorem le_foldr_max_of_mem (l : List ℚ) (d x : ℚ) (hx : x ∈ l) :
    x ≤ l.foldr max d := by
  induction l with
  | nil => cases hx
  | cons a l ih =>
    rcases List.mem_cons.mp hx with h | h
    · subst h
      exact le_max_left _ _
    · exact le_trans (ih h) (le_max_right _ _)

theorem init_le_foldr_max (l : List ℚ) (d : ℚ) : d ≤ l.foldr max d := by
  induction l with
  | nil => exact le_refl d
  | cons a l ih => exact le_trans ih (le_max_right _ _)

theorem minValue_le_elem (W : ℕ → ℕ → ℚ) (g i jg k : ℕ) (hk : k < g) :
    minValue W g i jg ≤ W i (jg * g + k) :=
  foldr_min_le_of_mem _ _ _
    (List.mem_map.mpr ⟨k, List.mem_range.mpr hk, rfl⟩)

theorem elem_le_maxValue (W : ℕ → ℕ → ℚ) (g i jg k : ℕ) (hk : k < g) :
    W i (jg * g + k) ≤ maxValue W g i jg :=
  le_foldr_max_of_mem _ _ _
    (List.mem_map.mpr ⟨k, List.mem_range.mpr hk, rfl⟩)

theorem minValue_le_maxValue (W : ℕ → ℕ → ℚ) (g i jg : ℕ) :
    minValue W g i jg ≤ maxValue W g i jg :=
  le_trans (foldr_min_le_init _ _) (init_le_foldr_max _ _)

theorem scaleValue_pos (W : ℕ → ℕ → ℚ) (g i jg : ℕ)
    (h : minValue W g i jg ≠ maxValue W g i jg) : 0 < scaleValue W g i jg := by
  have hle := minValue_le_maxValue W g i jg
  have : minValue W g i jg < maxValue W g i jg := lt_of_le_of_ne hle h
  unfold scaleValue
  exact div_pos (by linarith) (by norm_num)

theorem fScaleWeightN_lt16 (W : ℕ → ℕ → ℚ) (g i j : ℕ) :
    fScaleWeightN W g i j < 16 := by
  unfold fScaleWeightN
  rcases h : fScaleWeight W g i j with _ | z
  · simp
  · unfold fScaleWeight fdiv at h
    by_cases hz : scaleValue W g i (j / g) = 0
    · rw [if_pos hz] at h
      simp at h
    · rw [if_neg hz] at h
      simp only [Option.map_some'] at h
      obtain rfl : z = clampIdx (tirRound ((W i j - minValue W g i (j / g)) /
          scaleValue W g i (j / g))) := by
        injection h.symm
      simp only [Option.getD_some]
      unfold clampIdx
      omega

theorem fScaleWeight_isSome_of_scale_ne (W : ℕ → ℕ → ℚ) (g i j : ℕ)
    (h : scaleValue W g i (j / g) ≠ 0) :
    (fScaleWeight W g i j).isSome = true := by
  unfold fScaleWeight fdiv
  rw [if_neg h]
  rfl

/-- Uniqueness characterisation of `Int.log 2` from the binade bounds, used
to evaluate `f32ToBits` at concrete rationals. -/
theorem int_log_two_eq (r : ℚ) (e : ℤ) (h1 : (2 : ℚ) ^ e ≤ r)
    (h2 : r < (2 : ℚ) ^ (e + 1)) : Int.log 2 r = e := by
  have hcast : ((2 : ℕ) : ℚ) = (2 : ℚ) := by norm_num
  have hr : 0 < r := lt_of_lt_of_le (zpow_pos (by norm_num) e) h1
  have hle : e ≤ Int.log 2 r := by
    have h := Int.log_mono_right (b := 2) (zpow_pos (by norm_num) e) h1
    rw [show ((2 : ℚ) ^ e) = ((2 : ℕ) : ℚ) ^ e by rw [hcast]] at h
    rwa [Int.log_zpow (by norm_num : 1 < 2)] at h
  have hlt : Int.log 2 r ≤ e := by
    by_contra hc
    push_neg at hc
    have h3 : (2 : ℚ) ^ (e + 1) ≤ (2 : ℚ) ^ Int.log 2 r :=
      zpow_le_zpow_right₀ (by norm_num) (by omega)
    have h4 := Int.zpow_log_le_self (b := 2) (r := r) (by norm_num) hr
    rw [hcast] at h4
    linarith
  omega

/-- `rneRound` is the identity on integers. -/
theorem rneRound_int (x : ℚ) (z : ℤ) (h : x = z) : rneRound x = z := by
  subst h
  unfold rneRound
  rw [Int.floor_intCast, if_pos (by rw [sub_self]; norm_num)]

/-- Field-level evaluation of `f32FromBits`, with the bit-field extractions
supplied as hypotheses (dischargeable by `decide`). -/
theorem f32FromBits_eval (b sv ev mv : ℕ) (hs : (b >>> 31) &&& 1 = sv)
    (he : (b >>> 23) &&& 255 = ev) (hm : b &&& (2 ^ 23 - 1) = mv) :
    f32FromBits b = if ev = 255 then none else
      some ((if sv = 1 then (-1 : ℚ) else 1) *
        (if ev = 0 then (mv : ℚ) * (2 : ℚ) ^ (-149 : ℤ)
         else ((2 ^ 23 + mv : ℕ) : ℚ) * (2 : ℚ) ^ ((ev : ℤ) - 150))) := by
  subst hs
  subst he
  subst hm
  rfl

theorem f32ToBits_zero : f32ToBits (0 : ℚ) = 0 := by
  unfold f32ToBits
  rw [if_pos rfl]

theorem f32ToBits_one : f32ToBits (1 : ℚ) = 0x3F800000 := by
  have he : f32ToBitsExp |(1 : ℚ)| = 0 := by
    rw [show |(1 : ℚ)| = 1 by norm_num]
    unfold f32ToBitsExp
    rw [Int.log_one_right]
    decide
  have hm : f32ToBitsMant |(1 : ℚ)| = 8388608 := by
    unfold f32ToBitsMant
    rw [he, show |(1 : ℚ)| = 1 by norm_num]
    exact rneRound_int _ 8388608 (by norm_num)
  unfold f32ToBits
  rw [if_neg (by norm_num : ¬(1 : ℚ) = 0), if_neg (by norm_num : ¬(1 : ℚ) < 0),
    he, hm]
  decide

theorem f32ToBits_eighth : f32ToBits (1 / 8 : ℚ) = 0x3E000000 := by
  have hlog : Int.log 2 (1 / 8 : ℚ) = -3 := by
    refine int_log_two_eq _ _ (by norm_num) ?_
    rw [show (-3 + 1 : ℤ) = -2 by norm_num]
    norm_num
  have he : f32ToBitsExp |(1 / 8 : ℚ)| = -3 := by
    rw [show |(1 / 8 : ℚ)| = 1 / 8 by norm_num]
    unfold f32ToBitsExp
    rw [hlog]
    decide
  have hm : f32ToBitsMant |(1 / 8 : ℚ)| = 8388608 := by
    unfold f32ToBitsMant
    rw [he, show |(1 / 8 : ℚ)| = 1 / 8 by norm_num]
    refine rneRound_int _ 8388608 ?_
    rw [show ((23 : ℤ) - (-3)) = 26 by norm_num]
    norm_num
  unfold f32ToBits
  rw [if_neg (by norm_num : ¬(1 / 8 : ℚ) = 0),
    if_neg (by norm_num : ¬(1 / 8 : ℚ) < 0), he, hm]
  decide

theorem f32ToBits_bigMin : f32ToBits (1052672 : ℚ) = 0x49808000 := by
  have hlog : Int.log 2 (1052672 : ℚ) = 20 := by
    refine int_log_two_eq _ _ (by norm_num) ?_
    rw [show (20 + 1 : ℤ) = 21 by norm_num]
    norm_num
  have he : f32ToBitsExp |(1052672 : ℚ)| = 20 := by
    rw [show |(1052672 : ℚ)| = 1052672 by norm_num]
    unfold f32ToBitsExp
    rw [hlog]
    decide
  have hm : f32ToBitsMant |(1052672 : ℚ)| = 8421376 := by
    unfold f32ToBitsMant
    rw [he, show |(1052672 : ℚ)| = 1052672 by norm_num]
    refine rneRound_int _ 8421376 ?_
    rw [show ((23 : ℤ) - 20) = 3 by norm_num]
    norm_num
  unfold f32ToBits
  rw [if_neg (by norm_num : ¬(1052672 : ℚ) = 0),
    if_neg (by norm_num : ¬(1052672 : ℚ) < 0), he, hm]
  decide

/-- C1 (amended): whenever each of the groups covering the 8 columns of the
packed word containing column `j` is non-constant (no zero scale, no NaN)
and the stored bfloat16 (scale, bias) halves read back finite as `s'`, `b'`,
`decode(encode(W))` at `(i, j)` is defined and differs from `W i j` by at
most half a quantization step plus the bfloat16 representation errors of the
stored pair: `scale/2 + 15*|s' - scale| + |b' - min|`; when bfloat16 stores
scale and min exactly this gives the claimed bound of one scale. -/
theorem quantize_roundtrip_error_bound (W : ℕ → ℕ → ℚ) (g i j : ℕ) (s' b' : ℚ)
    (hg : 0 < g)
    (hnc : ∀ k, k < 8 → minValue W g i ((j / 8 * 8 + k) / g) ≠
      maxValue W g i ((j / 8 * 8 + k) / g))
    (hs' : storedScale W g i (j / g) = some s')
    (hb' : storedBias W g i (j / g) = some b') :
    ∃ q, roundTripOpt W g i j = some q ∧
      |q - W i j| ≤ scaleValue W g i (j / g) / 2 +
        15 * |s' - scaleValue W g i (j / g)| +
        |b' - minValue W g i (j / g)| ∧
      (s' = scaleValue W g i (j / g) → b' = minValue W g i (j / g) →
        |q - W i j| ≤ scaleValue W g i (j / g)) := by
  have hj8 : j / 8 * 8 + j % 8 = j := by omega
  have hgate : (List.range 8).all
      (fun k => (fScaleWeight W g i (j / 8 * 8 + k)).isSome) = true := by
    rw [List.all_eq_true]
    intro k hk
    exact fScaleWeight_isSome_of_scale_ne W g i _
      (ne_of_gt (scaleValue_pos W g i _ (hnc k (List.mem_range.mp hk))))
  have hrt : roundTripOpt W g i j =
      decodeAsymElem g (wGathered W g) (scaleBiasStored W g) i j := by
    unfold roundTripOpt
    rw [if_pos hgate]
  -- the group of column j itself is non-constant
  have hposj : 0 < scaleValue W g i (j / g) := by
    have := scaleValue_pos W g i ((j / 8 * 8 + j % 8) / g)
      (hnc (j % 8) (by omega))
    rwa [hj8] at this
  set s := scaleValue W g i (j / g) with hs
  set mn := minValue W g i (j / g) with hmn
  set mx := maxValue W g i (j / g) with hmx
  set v := W i j with hv
  have hjg : j / g * g + j % g = j := by
    rw [Nat.mul_comm (j / g) g]
    exact Nat.div_add_mod j g
  have hlo : mn ≤ v := by
    have := minValue_le_elem W g i (j / g) (j % g) (Nat.mod_lt j hg)
    rwa [hjg] at this
  have hhi : v ≤ mx := by
    have := elem_le_maxValue W g i (j / g) (j % g) (Nat.mod_lt j hg)
    rwa [hjg] at this
  have h15s : s * 15 = mx - mn := by
    rw [hs]
    unfold scaleValue
    rw [← hmn, ← hmx]
    field_simp
  set x := (v - mn) / s with hxdef
  have hx0 : 0 ≤ x := div_nonneg (by linarith) (le_of_lt hposj)
  have hx15 : x ≤ 15 := by
    rw [hxdef, div_le_iff hposj]
    linarith
  set r := round x with hrdef
  have hr0 : 0 ≤ r := by
    rw [hrdef, round_eq]
    exact Int.floor_nonneg.mpr (by linarith)
  have hr15 : r ≤ 15 := by
    have hmono : r ≤ ⌊(15 : ℚ) + 1 / 2⌋ := by
      rw [hrdef, round_eq]
      exact Int.floor_le_floor (by linarith)
    have : ⌊(15 : ℚ) + 1 / 2⌋ = 15 := by norm_num
    omega
  have htir : tirRound x = r := by
    unfold tirRound
    rw [if_pos hx0, hrdef]
  have hclamp : clampIdx r = r := by
    unfold clampIdx
    omega
  have hfsw : fScaleWeight W g i j = some r := by
    unfold fScaleWeight fdiv
    rw [if_neg (ne_of_gt hposj)]
    simp only [Option.map_some']
    rw [← hs, ← hmn, ← hv, ← hxdef, htir, hclamp]
  have hN : fScaleWeightN W g i j = r.toNat := by
    unfold fScaleWeightN
    rw [hfsw]
    rfl
  have hbounds : ∀ k, k < 8 → fScaleWeightN W g i (j / 8 * 8 + k) < 16 :=
    fun k _ => fScaleWeightN_lt16 W g i _
  have hnib : u32_to_i4_to_f32 (wGathered W g i (j / 8)) (j % 8) =
      ((r.toNat : ℕ) : ℚ) := by
    unfold u32_to_i4_to_f32 wGathered
    rw [packWord_nibble _ hbounds (j % 8) (by omega), hj8, hN]
  have hcast : ((r.toNat : ℕ) : ℚ) = (r : ℚ) := by
    exact_mod_cast Int.toNat_of_nonneg hr0
  have hsv : f32FromBits
      (u32_to_bf16x2_to_f32x2_bits (scaleBiasStored W g i (j / g))).1 =
        some s' := hs'
  have hbv : f32FromBits
      (u32_to_bf16x2_to_f32x2_bits (scaleBiasStored W g i (j / g))).2 =
        some b' := hb'
  have hdec : decodeAsymElem g (wGathered W g) (scaleBiasStored W g) i j =
      some ((r : ℚ) * s' + b') := by
    have h1 : decodeAsymElem g (wGathered W g) (scaleBiasStored W g) i j =
        some (u32_to_i4_to_f32 (wGathered W g i (j / 8)) (j % 8) * s' + b') := by
      simp only [decodeAsymElem]
      rw [hsv, hbv]
      rfl
    rw [h1, hnib, hcast]
  have hveq : x * s = v - mn := div_mul_cancel₀ _ (ne_of_gt hposj)
  have hround : |(r : ℚ) - x| ≤ 1 / 2 := by
    rw [hrdef]
    calc |((round x : ℤ) : ℚ) - x| = |x - round x| := abs_sub_comm _ _
      _ ≤ 1 / 2 := abs_sub_round x
  have hbase : |((r : ℚ) - x) * s| ≤ s / 2 := by
    rw [abs_mul, abs_of_pos hposj]
    calc |(r : ℚ) - x| * s ≤ (1 / 2) * s :=
          mul_le_mul_of_nonneg_right hround (le_of_lt hposj)
      _ = s / 2 := by ring
  refine ⟨(r : ℚ) * s' + b', by rw [hrt, hdec], ?_, ?_⟩
  · have e1 : (r : ℚ) * s' + b' - v =
        ((r : ℚ) - x) * s + (r : ℚ) * (s' - s) + (b' - mn) := by
      rw [sub_mul, hveq]
      ring
    have h2 : |(r : ℚ) * (s' - s)| ≤ 15 * |s' - s| := by
      rw [abs_mul]
      refine mul_le_mul_of_nonneg_right ?_ (abs_nonneg _)
      rw [abs_of_nonneg (by exact_mod_cast hr0 : (0 : ℚ) ≤ (r : ℚ))]
      exact_mod_cast hr15
    calc |(r : ℚ) * s' + b' - v|
        = |((r : ℚ) - x) * s + (r : ℚ) * (s' - s) + (b' - mn)| := by rw [e1]
      _ ≤ |((r : ℚ) - x) * s| + |(r : ℚ) * (s' - s)| + |b' - mn| :=
          abs_add_three _ _ _
      _ ≤ s / 2 + 15 * |s' - s| + |b' - mn| := by linarith [hbase, h2]
  · intro hse hbe
    rw [hse, hbe]
    have herr : (r : ℚ) * s + mn - v = ((r : ℚ) - x) * s := by
      rw [sub_mul, hveq]
      ring
    rw [herr]
    linarith [hbase]

/-- The alternating 0/15 matrix: with group size 2 every group is `{0, 15}`,
so the scale is exactly 1 and the bias exactly 0, both bfloat16-exact. -/
def witnessMatrix : ℕ → ℕ → ℚ := fun _ j => if j % 2 = 0 then 0 else 15

/-- Witness for `quantize_roundtrip_error_bound`: `witnessMatrix` with group
size 2 at element (0, 3); the stored halves read back as `s' = 1`, `b' = 0`. -/
theorem quantize_roundtrip_error_bound_witness :
    ∃ q, roundTripOpt witnessMatrix 2 0 3 = some q ∧
      |q - witnessMatrix 0 3| ≤
        scaleValue witnessMatrix 2 0 (3 / 2) / 2 +
          15 * |1 - scaleValue witnessMatrix 2 0 (3 / 2)| +
          |0 - minValue witnessMatrix 2 0 (3 / 2)| ∧
      ((1 : ℚ) = scaleValue witnessMatrix 2 0 (3 / 2) →
        (0 : ℚ) = minValue witnessMatrix 2 0 (3 / 2) →
        |q - witnessMatrix 0 3| ≤ scaleValue witnessMatrix 2 0 (3 / 2)) := by
  have hsc : scaleValue witnessMatrix 2 0 (3 / 2) = 1 := by
    norm_num [scaleValue, minValue, maxValue, groupCols, witnessMatrix,
      List.range_succ, min_def, max_def]
  have hmn : minValue witnessMatrix 2 0 (3 / 2) = 0 := by
    norm_num [minValue, groupCols, witnessMatrix, List.range_succ, min_def]
  have hsb : scaleBiasStored witnessMatrix 2 0 (3 / 2) = 0x3F80 := by
    unfold scaleBiasStored
    rw [hsc, hmn, f32ToBits_one, f32ToBits_zero]
    decide
  have hs1 : storedScale witnessMatrix 2 0 (3 / 2) = some 1 := by
    unfold storedScale
    rw [hsb, show (u32_to_bf16x2_to_f32x2_bits 0x3F80).1 = 0x3F800000 from by decide,
      f32FromBits_eval 0x3F800000 0 127 0 (by decide) (by decide) (by decide)]
    norm_num
  have hb0 : storedBias witnessMatrix 2 0 (3 / 2) = some 0 := by
    unfold storedBias
    rw [hsb, show (u32_to_bf16x2_to_f32x2_bits 0x3F80).2 = 0 from by decide,
      f32FromBits_eval 0 0 0 0 (by decide) (by decide) (by decide)]
    norm_num
  refine quantize_roundtrip_error_bound _ 2 0 3 1 0 (by norm_num) ?_ hs1 hb0
  intro k hk
  interval_cases k <;>
    simp [minValue, maxValue, groupCols, witnessMatrix, List.range_succ,
      min_def, max_def] <;>
    norm_num

theorem foldr_min_map_const (c : ℚ) (l : List ℕ) :
    (l.map fun _ => c).foldr min c = c := by
  induction l with
  | nil => rfl
  | cons a l ih => simp only [List.map_cons, List.foldr_cons, ih, min_self]

theorem foldr_max_map_const (c : ℚ) (l : List ℕ) :
    (l.map fun _ => c).foldr max c = c := by
  induction l with
  | nil => rfl
  | cons a l ih => simp only [List.map_cons, List.foldr_cons, ih, max_self]

theorem minValue_const (c : ℚ) (g i jg : ℕ) :
    minValue (fun _ _ => c) g i jg = c := by
  unfold minValue groupCols
  exact foldr_min_map_const c (List.range g)

theorem maxValue_const (c : ℚ) (g i jg : ℕ) :
    maxValue (fun _ _ => c) g i jg = c := by
  unfold maxValue groupCols
  exact foldr_max_map_const c (List.range g)

theorem scaleValue_const (c : ℚ) (g i jg : ℕ) :
    scaleValue (fun _ _ => c) g i jg = 0 := by
  unfold scaleValue
  rw [minValue_const, maxValue_const]
  simp

theorem fScaleWeight_const (c : ℚ) (g i j : ℕ) :
    fScaleWeight (fun _ _ => c) g i j = none := by
  unfold fScaleWeight fdiv
  rw [scaleValue_const, if_pos rfl]
  rfl

/-- A matrix whose group 0 (group size 8) has min `2^20 + 2^12 = 1052672`
and max `2^20 + 2^12 + 15/8`, both exactly representable in float32. The
scale is `1/8`, but the bfloat16 truncation of the stored bias rounds
`1052672` (`0x49808000`, a tie, to even) down to `2^20 = 1048576`. -/
def bf16LossMatrix : ℕ → ℕ → ℚ :=
  fun _ j => if j = 0 then 1052672 + 15 / 8 else 1052672

/-- Counterexample to C1 as stated, on two inputs: (i) on the all-zero matrix
(every group constant) the round trip has no value at (0, 0), the index
computation dividing 0 by a zero scale; (ii) on `bf16LossMatrix` (group size
8, a non-constant group) the round trip at (0, 1) is defined but errs by
4096 — the bfloat16 bias error — which vastly exceeds the scale `1/8`. -/
theorem quantize_roundtrip_scale_bound_fails :
    roundTripOpt (fun _ _ => (0 : ℚ)) 32 0 0 = none ∧
    ∃ q, roundTripOpt bf16LossMatrix 8 0 1 = some q ∧
      scaleValue bf16LossMatrix 8 0 (1 / 8) < |q - bf16LossMatrix 0 1| := by
  constructor
  · unfold roundTripOpt
    split
    · next h =>
        exfalso
        rw [List.all_eq_true] at h
        have := h 0 (List.mem_range.mpr (by norm_num))
        rw [fScaleWeight_const] at this
        simp at this
    · rfl
  · have hmin : minValue bf16LossMatrix 8 0 0 = 1052672 := by
      norm_num [minValue, groupCols, bf16LossMatrix, List.range_succ, min_def]
    have hmax : maxValue bf16LossMatrix 8 0 0 = 1052672 + 15 / 8 := by
      norm_num [maxValue, groupCols, bf16LossMatrix, List.range_succ, max_def]
    have hsc : scaleValue bf16LossMatrix 8 0 0 = 1 / 8 := by
      unfold scaleValue
      rw [hmin, hmax]
      norm_num
    have hgate : (List.range 8).all
        (fun k => (fScaleWeight bf16LossMatrix 8 0 (1 / 8 * 8 + k)).isSome) = true := by
      rw [List.all_eq_true]
      intro k hk
      have hk8 : k < 8 := List.mem_range.mp hk
      apply fScaleWeight_isSome_of_scale_ne
      rw [show (1 / 8 * 8 + k) / 8 = 0 from by omega, hsc]
      norm_num
    have hfsw1 : fScaleWeight bf16LossMatrix 8 0 1 = some 0 := by
      unfold fScaleWeight fdiv
      rw [show (1 : ℕ) / 8 = 0 from by norm_num, hsc, hmin]
      rw [if_neg (by norm_num : ¬(1 / 8 : ℚ) = 0)]
      simp only [Option.map_some']
      congr 1
      have harg : (bf16LossMatrix 0 1 - 1052672) / (1 / 8 : ℚ) = 0 := by
        norm_num [bf16LossMatrix]
      rw [harg]
      unfold tirRound
      rw [if_pos le_rfl, round_zero]
      decide
    have hN1 : fScaleWeightN bf16LossMatrix 8 0 1 = 0 := by
      unfold fScaleWeightN
      rw [hfsw1]
      rfl
    have hnib : u32_to_i4_to_f32 (wGathered bf16LossMatrix 8 0 (1 / 8)) (1 % 8) = 0 := by
      rw [show (1 : ℕ) / 8 = 0 from by norm_num, show (1 : ℕ) % 8 = 1 from by norm_num]
      unfold u32_to_i4_to_f32 wGathered
      rw [packWord_nibble _ (fun k _ => fScaleWeightN_lt16 bf16LossMatrix 8 0 _) 1
        (by norm_num)]
      rw [show (0 * 8 + 1 : ℕ) = 1 from by norm_num, hN1]
      norm_num
    have hsb : scaleBiasStored bf16LossMatrix 8 0 (1 / 8) = 0x49803E00 := by
      rw [show (1 : ℕ) / 8 = 0 from by norm_num]
      unfold scaleBiasStored
      rw [hsc, hmin, f32ToBits_eighth, f32ToBits_bigMin]
      decide
    have hv1 : f32FromBits
        (u32_to_bf16x2_to_f32x2_bits (scaleBiasStored bf16LossMatrix 8 0 (1 / 8))).1 =
          some (1 / 8) := by
      rw [hsb, show (u32_to_bf16x2_to_f32x2_bits 0x49803E00).1 = 0x3E000000 from by decide,
        f32FromBits_eval 0x3E000000 0 124 0 (by decide) (by decide) (by decide)]
      norm_num
    have hv2 : f32FromBits
        (u32_to_bf16x2_to_f32x2_bits (scaleBiasStored bf16LossMatrix 8 0 (1 / 8))).2 =
          some 1048576 := by
      rw [hsb, show (u32_to_bf16x2_to_f32x2_bits 0x49803E00).2 = 0x49800000 from by decide,
        f32FromBits_eval 0x49800000 0 147 0 (by decide) (by decide) (by decide)]
      norm_num
    have hdec : decodeAsymElem 8 (wGathered bf16LossMatrix 8)
        (scaleBiasStored bf16LossMatrix 8) 0 1 = some 1048576 := by
      have h1 : decodeAsymElem 8 (wGathered bf16LossMatrix 8)
          (scaleBiasStored bf16LossMatrix 8) 0 1 =
            some (u32_to_i4_to_f32 (wGathered bf16LossMatrix 8 0 (1 / 8)) (1 % 8) *
              (1 / 8) + 1048576) := by
        simp only [decodeAsymElem]
        rw [hv1, hv2]
        rfl
      rw [h1, hnib]
      norm_num
    refine ⟨1048576, ?_, ?_⟩
    · unfold roundTripOpt
      rw [if_pos hgate]
      exact hdec
    · rw [show (1 : ℕ) / 8 = 0 from by norm_num, hsc,
        show bf16LossMatrix 0 1 = 1052672 from by norm_num [bf16LossMatrix],
        show |(1048576 : ℚ) - 1052672| = 4096 from by
          rw [abs_sub_comm, abs_of_nonneg (by norm_num : (0 : ℚ) ≤ 1052672 - 1048576)]
          norm_num]
      norm_num

/-- C10: a matrix with a constant group (here the all-zero matrix with
`group_size = 32`) satisfies the precondition `cols % group_size == 0`, yet
the computed scale is `(max - min)/15 = 0` and the index computation
`round((value - min)/scale)` divides zero by zero, so the quantized index is
not well-defined (NaN, `none` here): `encode` is not total over matrices
satisfying only the stated precondition. -/
theorem encode_not_total_on_constant_group :
    scaleValue (fun _ _ => (0 : ℚ)) 32 0 0 = 0 ∧
    fScaleWeight (fun _ _ => (0 : ℚ)) 32 0 0 = none :=
  ⟨scaleValue_const 0 32 0 0, fScaleWeight_const 0 32 0 0⟩

end WebLLM
